import Mathlib

/-!
Verification of the run-formatting converter (src/converter.py).

The Python source is shallowly embedded: runs carry a text string and three
boolean style flags; `add_tags` and `get_string` mirror `DocxPar.add_tags`
and `DocxPar.get_string`; `get_modified_text` mirrors
`Document.get_modified_text`; `get_margins` mirrors `Format.get_margins`
(lines 168 to 191, after the config lookups) with the float values of the
config modelled as rationals.  Auxiliary token-level views of the emitted
strings (`tokens`, `netOpens`, ...) are related to the string functions by
proved bridge lemmas.
-/

/-- A text run: `text` plus the three character-style flags.  Mirrors the
run objects consumed by `DocxPar.get_string`; a flag that is `None` in the
source behaves as falsy there, hence plain booleans suffice. -/
structure Run where
  text : String
  bold : Bool
  italic : Bool
  underline : Bool
deriving DecidableEq

/-- Mirrors `DocxPar.add_tags(cur, prev)` (converter.py lines 110 to 128):
first the opening tags for `cur` (bold, italic, underline order), then the
closing tags for `prev` (underline, italic, bold order).  A missing run is
`none`, exactly as `None` in the source. -/
def add_tags (cur prev : Option Run) : String :=
  (match cur with
   | none => ""
   | some c =>
     (if c.bold && (match prev with | none => true | some p => !p.bold)
       then "<b>" else "")
     ++ (if c.italic && (match prev with | none => true | some p => !p.italic)
       then "<i>" else "")
     ++ (if c.underline && (match prev with | none => true | some p => !p.underline)
       then "<u>" else ""))
  ++ (match prev with
   | none => ""
   | some p =>
     (if (match cur with | none => true | some c => !c.underline) && p.underline
       then "</u>" else "")
     ++ (if (match cur with | none => true | some c => !c.italic) && p.italic
       then "</i>" else "")
     ++ (if (match cur with | none => true | some c => !c.bold) && p.bold
       then "</b>" else ""))

/-- The body of the loop in `DocxPar.get_string` (lines 100 to 103): the
accumulator carries the string built so far and the current run. -/
def get_string_step (acc : String × Run) (pr : Run × Run) : String × Run :=
  (acc.1 ++ add_tags (some pr.2) (some pr.1) ++ pr.2.text, pr.2)

/-- Mirrors `DocxPar.get_string` (converter.py lines 92 to 108): tags for
the first run, then for every consecutive pair `(prev, cur)` of
`zip(runs, runs[1:])` the boundary tags followed by the text of `cur`, and
finally the closing tags for the last run.  An empty run list yields the
empty string. -/
def get_string (runs : List Run) : String :=
  match runs with
  | [] => ""
  | r0 :: rest =>
    let fin := (List.zip (r0 :: rest) rest).foldl get_string_step
      (add_tags (some r0) none ++ r0.text, r0)
    fin.1 ++ add_tags none (some fin.2)

/-- The three inline tag names handled by the reconciler. -/
inductive TagKind
  | b
  | i
  | u
deriving DecidableEq

/-- Reads the flag of a run that corresponds to a tag kind. -/
def flagOf : TagKind → Run → Bool
  | .b, r => r.bold
  | .i, r => r.italic
  | .u, r => r.underline

/-- A token of the reconciled output: an opening tag, a closing tag, or a
piece of run text. -/
inductive Tok
  | openTag (t : TagKind)
  | closeTag (t : TagKind)
  | text (s : String)
deriving DecidableEq

/-- The literal string of a token. -/
def renderTok : Tok → String
  | .openTag .b => "<b>"
  | .openTag .i => "<i>"
  | .openTag .u => "<u>"
  | .closeTag .b => "</b>"
  | .closeTag .i => "</i>"
  | .closeTag .u => "</u>"
  | .text s => s

/-- Concatenation of the literal strings of a token list. -/
def renderToks : List Tok → String
  | [] => ""
  | tok :: rest => renderTok tok ++ renderToks rest

/-- Token-level view of `add_tags`: the same conditions in the same order,
emitting tokens instead of string literals.  Related to `add_tags` by
`add_tags_eq_renderToks` below. -/
def tagEvents (cur prev : Option Run) : List Tok :=
  (match cur with
   | none => []
   | some c =>
     (if c.bold && (match prev with | none => true | some p => !p.bold)
       then [Tok.openTag .b] else [])
     ++ (if c.italic && (match prev with | none => true | some p => !p.italic)
       then [Tok.openTag .i] else [])
     ++ (if c.underline && (match prev with | none => true | some p => !p.underline)
       then [Tok.openTag .u] else []))
  ++ (match prev with
   | none => []
   | some p =>
     (if (match cur with | none => true | some c => !c.underline) && p.underline
       then [Tok.closeTag .u] else [])
     ++ (if (match cur with | none => true | some c => !c.italic) && p.italic
       then [Tok.closeTag .i] else [])
     ++ (if (match cur with | none => true | some c => !c.bold) && p.bold
       then [Tok.closeTag .b] else []))

/-- Token-level view of the tail of a paragraph: boundary tokens and text
for each remaining run, then the final closing tokens. -/
def tokensAux (prev : Run) : List Run → List Tok
  | [] => tagEvents none (some prev)
  | c :: rest => tagEvents (some c) (some prev) ++ Tok.text c.text :: tokensAux c rest

/-- Token-level view of a whole paragraph, matching the structure of
`get_string`. -/
def tokens : List Run → List Tok
  | [] => []
  | r0 :: rest => tagEvents (some r0) none ++ Tok.text r0.text :: tokensAux r0 rest

/-- The tokens of the tail of a paragraph that are emitted strictly before
the text of the run at index `i` of the remaining runs. -/
def tokensBeforeAux (prev : Run) : List Run → Nat → List Tok
  | c :: _, 0 => tagEvents (some c) (some prev)
  | c :: rest, i + 1 =>
      tagEvents (some c) (some prev) ++ Tok.text c.text :: tokensBeforeAux c rest i
  | [], _ => []

/-- The tokens of a paragraph that are emitted strictly before the text of
the run at index `i`. -/
def tokensBefore : List Run → Nat → List Tok
  | r0 :: _, 0 => tagEvents (some r0) none
  | r0 :: rest, i + 1 =>
      tagEvents (some r0) none ++ Tok.text r0.text :: tokensBeforeAux r0 rest i
  | [], _ => []

/-- Opens minus closes of one tag kind in a token list, as an integer. -/
def netOpens (t : TagKind) : List Tok → ℤ
  | [] => 0
  | Tok.openTag s :: rest => (if s = t then 1 else 0) + netOpens t rest
  | Tok.closeTag s :: rest => (if s = t then -1 else 0) + netOpens t rest
  | Tok.text _ :: rest => netOpens t rest

/-- String view of the tail of a paragraph: for each remaining run its
boundary tag group followed by its text, then the final closing tags.
`get_string_shape` below shows `get_string` decomposes through this. -/
def boundaryGroups (prev : Run) : List Run → String
  | [] => add_tags none (some prev)
  | c :: rest => add_tags (some c) (some prev) ++ c.text ++ boundaryGroups c rest

/-- The opening half of `add_tags` (lines 114 to 120) in isolation. -/
def openPart (c : Run) (prev : Option Run) : String :=
  (if c.bold && (match prev with | none => true | some p => !p.bold)
    then "<b>" else "")
  ++ (if c.italic && (match prev with | none => true | some p => !p.italic)
    then "<i>" else "")
  ++ (if c.underline && (match prev with | none => true | some p => !p.underline)
    then "<u>" else "")

/-- The closing half of `add_tags` (lines 121 to 127) in isolation. -/
def closePart (p : Run) (cur : Option Run) : String :=
  (if (match cur with | none => true | some c => !c.underline) && p.underline
    then "</u>" else "")
  ++ (if (match cur with | none => true | some c => !c.italic) && p.italic
    then "</i>" else "")
  ++ (if (match cur with | none => true | some c => !c.bold) && p.bold
    then "</b>" else "")

/-- The opening tag sequence for a flag set, in bold, italic, underline
order. -/
def openSeq (b i u : Bool) : String :=
  (if b then "<b>" else "") ++ (if i then "<i>" else "") ++ (if u then "<u>" else "")

/-- The closing tag sequence for a flag set, in underline, italic, bold
order. -/
def closeSeq (b i u : Bool) : String :=
  (if u then "</u>" else "") ++ (if i then "</i>" else "") ++ (if b then "</b>" else "")

/-- Concatenation of a list of strings. -/
def strConcat : List String → String
  | [] => ""
  | s :: rest => s ++ strConcat rest

/-- Stack checker for tag tokens: every closing tag must close the most
recently opened still-open tag, and the stack must be empty at the end. -/
def checkNested : List Tok → List TagKind → Bool
  | [], stack => stack.isEmpty
  | Tok.text _ :: rest, stack => checkNested rest stack
  | Tok.openTag t :: rest, stack => checkNested rest (t :: stack)
  | Tok.closeTag t :: rest, stack =>
    match stack with
    | s :: stack2 => decide (t = s) && checkNested rest stack2
    | [] => false

/-- A token list is well nested when the stack checker accepts it. -/
def wellNested (l : List Tok) : Bool :=
  checkNested l []

/-- The event of one token for one tag kind: `some true` for its opening
tag, `some false` for its closing tag, `none` otherwise. -/
def tEvent (t : TagKind) : Tok → Option Bool
  | .openTag s => if s = t then some true else none
  | .closeTag s => if s = t then some false else none
  | .text _ => none

/-- The open and close events of one tag kind in a token list. -/
def tEvents (t : TagKind) (l : List Tok) : List Bool :=
  l.filterMap (tEvent t)

/-- Sum of events: an open counts 1, a close counts -1. -/
def sumE : List Bool → ℤ
  | [] => 0
  | e :: rest => (if e then 1 else -1) + sumE rest

/-- 1 for a true flag, 0 for a false one. -/
def bInt (b : Bool) : ℤ :=
  if b then 1 else 0

/-- Whether `nee` occurs as a contiguous sublist of `hay`. -/
def hasSub : List Char → List Char → Bool
  | [], nee => nee.isEmpty
  | c :: rest, nee => nee.isPrefixOf (c :: rest) || hasSub rest nee

/-- The single-quote character as a string (code point 39). -/
def squo : String :=
  ⟨[Char.ofNat 39]⟩

/-- The four tag strings held by `Format` (converter.py lines 143 to 146). -/
structure Format where
  div_tag : String
  p_tag : String
  div_end_tag : String
  p_end_tag : String

/-- Mirrors the tail of `Format.__init__` (lines 143 to 146), given the
already-computed margin, indent and width style fragments: the `div` tag
carries `align=justify` and the style string; the `p` tag carries a style
attribute only when the (right-stripped) `p` margin string is non-empty. -/
def Format.make (div_mar ind w p_mar : String) : Format :=
  { div_tag := "<div align=" ++ squo ++ "justify" ++ squo ++ " style=" ++ squo
      ++ div_mar ++ ind ++ w ++ squo ++ ">"
  , p_tag := if p_mar ≠ "" then "<p style=" ++ squo ++ p_mar ++ squo ++ ">" else "<p>"
  , div_end_tag := "</div>"
  , p_end_tag := "</p>" }

/-- A docx paragraph as consumed by `Document.get_modified_text`: its runs
and its alignment string (`justify` by default, `right` when the source
paragraph is right-aligned). -/
structure DocxPar where
  runs : List Run
  align : String

/-- Python string slicing `s[:n]` on code points. -/
def strTake (s : String) (n : Nat) : String :=
  ⟨s.data.take n⟩

/-- Python string slicing `s[n:]` on code points. -/
def strDrop (s : String) (n : Nat) : String :=
  ⟨s.data.drop n⟩

/-- The body of the loop of `Document.get_modified_text` (lines 21 to 32):
a non-empty reconciled string is wrapped in the `p` tag (with
` align=right` spliced in after `<p` for right-aligned paragraphs), an
empty one becomes the break marker `div_end_tag + div_tag`. -/
def wrapUnit (fmt : Format) (par : DocxPar) : String :=
  let s := get_string par.runs
  if s ≠ "" then
    if par.align = "right" then
      (strTake fmt.p_tag 2 ++ " align=" ++ squo ++ "right" ++ squo ++ strDrop fmt.p_tag 2)
        ++ s ++ fmt.p_end_tag
    else
      fmt.p_tag ++ s ++ fmt.p_end_tag
  else
    fmt.div_end_tag ++ fmt.div_tag

/-- Mirrors `Document.get_modified_text` (converter.py lines 18 to 35):
the list starts with the `div` tag, gets one unit appended per paragraph
in order, and ends with the closing `div` tag. -/
def get_modified_text (fmt : Format) (pars : List DocxPar) : List String :=
  (pars.foldl (fun result par => result ++ [wrapUnit fmt par]) [fmt.div_tag])
    ++ [fmt.div_end_tag]

/-- Python `str.rstrip()` restricted to its effect here: drop trailing
whitespace. -/
def rstrip (s : String) : String :=
  ⟨(s.data.reverse.dropWhile Char.isWhitespace).reverse⟩

/-- Renders a rational as Python `str()` renders the corresponding float
value, for the values this development evaluates: an integral value gets a
trailing `.0` (Python prints `10.0` for `float(10)`); other values are
rendered as plain rationals, which the claims never evaluate. -/
def pyFloatRepr (q : ℚ) : String :=
  if q.den = 1 then toString q.num ++ ".0" else toString q

/-- Mirrors the branch logic of `Format.get_margins` (converter.py lines
168 to 191) on the four parsed margin values, modelled as rationals
(Python float truthiness is value-not-zero).  The two `print` calls in the
all-equal branch are console side effects with no bearing on the returned
string and are not modelled. -/
def get_margins (top right bottom left : ℚ) (units : String) : String :=
  if ¬(top ≠ 0 ∧ right ≠ 0 ∧ bottom ≠ 0 ∧ left ≠ 0) then
    ""
  else if top = right ∧ right = bottom ∧ bottom = left then
    "margin: " ++ pyFloatRepr top ++ units ++ "; "
  else if top ≠ 0 ∧ ¬(right ≠ 0 ∧ bottom ≠ 0 ∧ left ≠ 0) then
    "margin-top: " ++ pyFloatRepr top ++ units ++ "; "
  else if top = bottom ∧ right = left then
    "margin: " ++ pyFloatRepr top ++ units ++ " " ++ pyFloatRepr right ++ units ++ "; "
  else if left ≠ 0 ∧ ¬(right ≠ 0 ∧ top ≠ 0 ∧ bottom ≠ 0) then
    "margin-right: " ++ pyFloatRepr left ++ units ++ "; "
  else if right ≠ 0 ∧ ¬(left ≠ 0 ∧ top ≠ 0 ∧ bottom ≠ 0) then
    "margin-left: " ++ pyFloatRepr right ++ units ++ "; "
  else if bottom ≠ 0 ∧ ¬(right ≠ 0 ∧ left ≠ 0 ∧ top ≠ 0) then
    "margin-bottom: " ++ pyFloatRepr bottom ++ units ++ "; "
  else if top ≠ bottom ∧ right = left then
    "margin: " ++ pyFloatRepr top ++ units ++ " " ++ pyFloatRepr right ++ units
      ++ " " ++ pyFloatRepr bottom ++ units ++ "; "
  else
    "margin: " ++ pyFloatRepr top ++ units ++ " " ++ pyFloatRepr right ++ units
      ++ " " ++ pyFloatRepr bottom ++ units ++ " " ++ pyFloatRepr left ++ units ++ "; "

/-- The margin-related entries of a config section for one tag: `none`
models a missing key. -/
structure MarginSection where
  top : Option ℚ
  right : Option ℚ
  bottom : Option ℚ
  left : Option ℚ
  units : Option String

/-- Mirrors the config lookups of `Format.get_margins` (lines 163 to 167):
a missing key raises `KeyError` in the source, modelled as an error value;
with all five keys present the branch logic runs. -/
def get_marginsSection (sec : MarginSection) : Except String String :=
  match sec.top, sec.right, sec.bottom, sec.left, sec.units with
  | some top, some right, some bottom, some left, some units =>
      Except.ok (get_margins top right bottom left units)
  | _, _, _, _, _ => Except.error "KeyError"

/-! ### Bridge lemmas between the string functions and the token view -/

theorem renderToks_append (a b : List Tok) :
    renderToks (a ++ b) = renderToks a ++ renderToks b := by
  induction a with
  | nil => simp [renderToks]
  | cons tok rest ih => simp [renderToks, ih, String.append_assoc]

theorem add_tags_eq_renderToks (cur prev : Option Run) :
    add_tags cur prev = renderToks (tagEvents cur prev) := by
  rcases cur with _ | c <;> rcases prev with _ | p
  · rfl
  · rcases p with ⟨tp, pb, pi, pu⟩
    cases pb <;> cases pi <;> cases pu <;> rfl
  · rcases c with ⟨tc, cb, ci, cu⟩
    cases cb <;> cases ci <;> cases cu <;> rfl
  · rcases c with ⟨tc, cb, ci, cu⟩; rcases p with ⟨tp, pb, pi, pu⟩
    cases cb <;> cases ci <;> cases cu <;> cases pb <;> cases pi <;> cases pu <;> rfl

theorem boundaryGroups_eq_renderToks (rest : List Run) : ∀ prev : Run,
    boundaryGroups prev rest = renderToks (tokensAux prev rest) := by
  induction rest with
  | nil => intro prev; simp [boundaryGroups, tokensAux, add_tags_eq_renderToks]
  | cons c rest ih =>
    intro prev
    simp [boundaryGroups, tokensAux, renderToks_append, renderToks, renderTok, ih,
      add_tags_eq_renderToks, String.append_assoc]

theorem get_string_foldl (rest : List Run) : ∀ (prev : Run) (s : String),
    (((List.zip (prev :: rest) rest).foldl get_string_step (s, prev)).1
      ++ add_tags none (some ((List.zip (prev :: rest) rest).foldl
            get_string_step (s, prev)).2))
    = s ++ boundaryGroups prev rest := by
  induction rest with
  | nil => intro prev s; simp [boundaryGroups]
  | cons c rest ih =>
    intro prev s
    rw [List.zip_cons_cons, List.foldl_cons]
    show (((List.zip (c :: rest) rest).foldl get_string_step
        (s ++ add_tags (some c) (some prev) ++ c.text, c)).1
      ++ add_tags none (some ((List.zip (c :: rest) rest).foldl get_string_step
        (s ++ add_tags (some c) (some prev) ++ c.text, c)).2))
      = s ++ boundaryGroups prev (c :: rest)
    rw [ih c (s ++ add_tags (some c) (some prev) ++ c.text)]
    simp [boundaryGroups, String.append_assoc]

theorem get_string_shape (r0 : Run) (rest : List Run) :
    get_string (r0 :: rest)
      = add_tags (some r0) none ++ r0.text ++ boundaryGroups r0 rest := by
  show (((List.zip (r0 :: rest) rest).foldl get_string_step
      (add_tags (some r0) none ++ r0.text, r0)).1
    ++ add_tags none (some ((List.zip (r0 :: rest) rest).foldl get_string_step
      (add_tags (some r0) none ++ r0.text, r0)).2))
    = add_tags (some r0) none ++ r0.text ++ boundaryGroups r0 rest
  rw [get_string_foldl rest r0 (add_tags (some r0) none ++ r0.text)]

theorem get_string_eq_renderToks (runs : List Run) :
    get_string runs = renderToks (tokens runs) := by
  cases runs with
  | nil => rfl
  | cons r0 rest =>
    rw [get_string_shape, tokens]
    simp [renderToks_append, renderToks, renderTok, boundaryGroups_eq_renderToks,
      add_tags_eq_renderToks, String.append_assoc]

/-! ### Counting lemmas for the token view -/

theorem bInt_nonneg (b : Bool) : 0 ≤ bInt b := by
  cases b <;> simp [bInt]

theorem netOpens_append (t : TagKind) (a b : List Tok) :
    netOpens t (a ++ b) = netOpens t a + netOpens t b := by
  induction a with
  | nil => simp [netOpens]
  | cons tok rest ih => cases tok <;> simp [netOpens, ih, add_assoc]

theorem netOpens_text_cons (t : TagKind) (s : String) (l : List Tok) :
    netOpens t (Tok.text s :: l) = netOpens t l := rfl

theorem netOpens_first (t : TagKind) (c : Run) :
    netOpens t (tagEvents (some c) none) = bInt (flagOf t c) := by
  rcases c with ⟨tx, b, i, u⟩
  cases t <;> cases b <;> cases i <;> cases u <;> rfl

theorem netOpens_mid (t : TagKind) (c p : Run) :
    netOpens t (tagEvents (some c) (some p))
      = bInt (flagOf t c) - bInt (flagOf t p) := by
  rcases c with ⟨tc, cb, ci, cu⟩; rcases p with ⟨tp, pb, pi, pu⟩
  cases t <;> cases cb <;> cases ci <;> cases cu <;>
    cases pb <;> cases pi <;> cases pu <;> rfl

theorem netOpens_last (t : TagKind) (p : Run) :
    netOpens t (tagEvents none (some p)) = -bInt (flagOf t p) := by
  rcases p with ⟨tx, b, i, u⟩
  cases t <;> cases b <;> cases i <;> cases u <;> rfl

theorem netOpens_tokensAux (t : TagKind) (rest : List Run) : ∀ prev : Run,
    netOpens t (tokensAux prev rest) = -bInt (flagOf t prev) := by
  induction rest with
  | nil => intro prev; simp [tokensAux, netOpens_last]
  | cons c rest ih =>
    intro prev
    rw [tokensAux, netOpens_append, netOpens_text_cons, ih c, netOpens_mid]
    omega

theorem netOpens_tokens (t : TagKind) (runs : List Run) :
    netOpens t (tokens runs) = 0 := by
  cases runs with
  | nil => rfl
  | cons r0 rest =>
    rw [tokens, netOpens_append, netOpens_text_cons, netOpens_tokensAux,
      netOpens_first]
    omega

/-! ### Per-tag event lists and the matching (Dyck) property -/

theorem tEvents_append (t : TagKind) (a b : List Tok) :
    tEvents t (a ++ b) = tEvents t a ++ tEvents t b := by
  simp [tEvents, List.filterMap_append]

theorem tEvents_text_cons (t : TagKind) (s : String) (l : List Tok) :
    tEvents t (Tok.text s :: l) = tEvents t l := by
  simp [tEvents, List.filterMap_cons, tEvent]

theorem sumE_append (a b : List Bool) : sumE (a ++ b) = sumE a + sumE b := by
  induction a with
  | nil => simp [sumE]
  | cons e rest ih => simp [sumE, ih, add_assoc]

theorem netOpens_eq_sumE (t : TagKind) (l : List Tok) :
    netOpens t l = sumE (tEvents t l) := by
  induction l with
  | nil => rfl
  | cons tok rest ih =>
    cases tok with
    | openTag s =>
      by_cases h : s = t <;>
        simp [netOpens, tEvents, tEvent, List.filterMap_cons, h, sumE] <;>
        rw [← tEvents, ← ih]
    | closeTag s =>
      by_cases h : s = t <;>
        simp [netOpens, tEvents, tEvent, List.filterMap_cons, h, sumE] <;>
        rw [← tEvents, ← ih]
    | text s => rw [netOpens_text_cons, tEvents_text_cons, ih]

theorem tEvents_first (t : TagKind) (c : Run) :
    tEvents t (tagEvents (some c) none) = if flagOf t c then [true] else [] := by
  rcases c with ⟨tx, b, i, u⟩
  cases t <;> cases b <;> cases i <;> cases u <;> rfl

theorem tEvents_mid (t : TagKind) (c p : Run) :
    tEvents t (tagEvents (some c) (some p))
      = if flagOf t c && !flagOf t p then [true]
        else if flagOf t p && !flagOf t c then [false] else [] := by
  rcases c with ⟨tc, cb, ci, cu⟩; rcases p with ⟨tp, pb, pi, pu⟩
  cases t <;> cases cb <;> cases ci <;> cases cu <;>
    cases pb <;> cases pi <;> cases pu <;> rfl

theorem tEvents_last (t : TagKind) (p : Run) :
    tEvents t (tagEvents none (some p)) = if flagOf t p then [false] else [] := by
  rcases p with ⟨tx, b, i, u⟩
  cases t <;> cases b <;> cases i <;> cases u <;> rfl

theorem sumE_first (t : TagKind) (c : Run) :
    sumE (tEvents t (tagEvents (some c) none)) = bInt (flagOf t c) := by
  rw [tEvents_first]
  cases hf : flagOf t c <;> simp [sumE, bInt]

theorem sumE_mid (t : TagKind) (c p : Run) :
    bInt (flagOf t p) + sumE (tEvents t (tagEvents (some c) (some p)))
      = bInt (flagOf t c) := by
  rw [tEvents_mid]
  cases hc : flagOf t c <;> cases hp : flagOf t p <;> simp [sumE, bInt]

theorem len_first (t : TagKind) (c : Run) :
    (tEvents t (tagEvents (some c) none)).length ≤ 1 := by
  rw [tEvents_first]; cases hf : flagOf t c <;> simp

theorem len_mid (t : TagKind) (c p : Run) :
    (tEvents t (tagEvents (some c) (some p))).length ≤ 1 := by
  rw [tEvents_mid]
  cases hc : flagOf t c <;> cases hp : flagOf t p <;> simp

theorem eq_nil_or_eq_of_short {α : Type} (g ev m : List α)
    (hg : g = ev ++ m) (hl : g.length ≤ 1) : ev = [] ∨ ev = g := by
  cases ev with
  | nil => exact Or.inl rfl
  | cons a as =>
    right
    subst hg
    simp only [List.length_append, List.length_cons] at hl
    have has : as.length = 0 ∧ m.length = 0 := by omega
    have h1 : as = [] := List.length_eq_zero.mp has.1
    have h2 : m = [] := List.length_eq_zero.mp has.2
    subst h1; subst h2
    simp

theorem dyck_aux (t : TagKind) (rest : List Run) : ∀ (prev : Run) (ev evpost : List Bool),
    tEvents t (tokensAux prev rest) = ev ++ evpost →
    0 ≤ bInt (flagOf t prev) + sumE ev := by
  induction rest with
  | nil =>
    intro prev ev evpost h
    rw [tokensAux, tEvents_last] at h
    by_cases hf : flagOf t prev
    · rw [if_pos hf] at h
      rcases eq_nil_or_eq_of_short _ _ _ h (by simp) with h1 | h1 <;>
        subst h1 <;> simp [sumE, bInt, hf]
    · rw [if_neg hf] at h
      have h1 : ev = [] := (List.append_eq_nil.mp h.symm).1
      subst h1
      simpa [sumE] using bInt_nonneg (flagOf t prev)
  | cons c rest ih =>
    intro prev ev evpost h
    rw [tokensAux, tEvents_append, tEvents_text_cons] at h
    rcases List.append_eq_append_iff.mp h with ⟨m, hev, htail⟩ | ⟨m, hg, _⟩
    · subst hev
      rw [sumE_append]
      have hrec := ih c m evpost htail
      have hgrp := sumE_mid t c prev
      omega
    · rcases eq_nil_or_eq_of_short _ _ _ hg (len_mid t c prev) with h1 | h1
      · subst h1
        simpa [sumE] using bInt_nonneg (flagOf t prev)
      · subst h1
        have hgrp := sumE_mid t c prev
        have hc := bInt_nonneg (flagOf t c)
        omega

theorem dyck_tokens (t : TagKind) (runs : List Run) : ∀ pre post : List Tok,
    tokens runs = pre ++ post → 0 ≤ netOpens t pre := by
  intro pre post h
  rw [netOpens_eq_sumE]
  cases runs with
  | nil =>
    have h1 : pre = [] := (List.append_eq_nil.mp h.symm).1
    subst h1
    simp [tEvents, sumE]
  | cons r0 rest =>
    have hsplit : tEvents t (tagEvents (some r0) none)
        ++ tEvents t (tokensAux r0 rest) = tEvents t pre ++ tEvents t post := by
      have h2 : tEvents t (tokens (r0 :: rest)) = tEvents t pre ++ tEvents t post := by
        rw [h, tEvents_append]
      rw [tokens, tEvents_append, tEvents_text_cons] at h2
      exact h2
    rcases List.append_eq_append_iff.mp hsplit with ⟨m, hev, htail⟩ | ⟨m, hg, _⟩
    · rw [hev, sumE_append, sumE_first]
      have hrec := dyck_aux t rest r0 m (tEvents t post) htail
      omega
    · rcases eq_nil_or_eq_of_short _ _ _ hg (len_first t r0) with h1 | h1
      · rw [h1]; simp [sumE]
      · rw [h1, sumE_first]
        exact bInt_nonneg (flagOf t r0)

/-! ### The open-tag count in front of each run text -/

theorem netOpens_tokensBeforeAux (t : TagKind) (rest : List Run) :
    ∀ (prev : Run) (i : Nat) (h : i < rest.length),
    netOpens t (tokensBeforeAux prev rest i)
      = bInt (flagOf t (rest.get ⟨i, h⟩)) - bInt (flagOf t prev) := by
  induction rest with
  | nil => intro prev i h; exact absurd h (by simp)
  | cons c rest ih =>
    intro prev i h
    cases i with
    | zero => simp [tokensBeforeAux, netOpens_mid, List.get]
    | succ i =>
      have h2 : i < rest.length := by simpa using h
      rw [tokensBeforeAux, netOpens_append, netOpens_text_cons,
        ih c i h2, netOpens_mid]
      simp [List.get]

theorem netOpens_tokensBefore (t : TagKind) (runs : List Run) (i : Nat)
    (h : i < runs.length) :
    netOpens t (tokensBefore runs i) = bInt (flagOf t (runs.get ⟨i, h⟩)) := by
  cases runs with
  | nil => exact absurd h (by simp)
  | cons r0 rest =>
    cases i with
    | zero => simp [tokensBefore, netOpens_first, List.get]
    | succ i =>
      have h2 : i < rest.length := by simpa using h
      rw [tokensBefore, netOpens_append, netOpens_text_cons,
        netOpens_tokensBeforeAux t rest r0 i h2, netOpens_first]
      simp [List.get]

theorem tokensAux_split (rest : List Run) :
    ∀ (prev : Run) (i : Nat) (h : i < rest.length),
    ∃ sfx, tokensAux prev rest
      = tokensBeforeAux prev rest i ++ Tok.text (rest.get ⟨i, h⟩).text :: sfx := by
  induction rest with
  | nil => intro prev i h; exact absurd h (by simp)
  | cons c rest ih =>
    intro prev i h
    cases i with
    | zero => exact ⟨tokensAux c rest, rfl⟩
    | succ i =>
      have h2 : i < rest.length := by simpa using h
      obtain ⟨sfx, hs⟩ := ih c i h2
      refine ⟨sfx, ?_⟩
      rw [tokensAux, tokensBeforeAux, hs]
      simp [List.get]

theorem tokens_split (runs : List Run) (i : Nat) (h : i < runs.length) :
    ∃ sfx, tokens runs
      = tokensBefore runs i ++ Tok.text (runs.get ⟨i, h⟩).text :: sfx := by
  cases runs with
  | nil => exact absurd h (by simp)
  | cons r0 rest =>
    cases i with
    | zero => exact ⟨tokensAux r0 rest, rfl⟩
    | succ i =>
      have h2 : i < rest.length := by simpa using h
      obtain ⟨sfx, hs⟩ := tokensAux_split rest r0 i h2
      refine ⟨sfx, ?_⟩
      rw [tokens, tokensBefore, hs]
      simp [List.get]

/-! ### Uniform-flag and empty-paragraph lemmas -/

theorem add_tags_first_eq_openSeq (c : Run) :
    add_tags (some c) none = openSeq c.bold c.italic c.underline := by
  rcases c with ⟨tx, b, i, u⟩
  cases b <;> cases i <;> cases u <;> rfl

theorem add_tags_last_eq_closeSeq (p : Run) :
    add_tags none (some p) = closeSeq p.bold p.italic p.underline := by
  rcases p with ⟨tx, b, i, u⟩
  cases b <;> cases i <;> cases u <;> rfl

theorem add_tags_same_flags (c p : Run) (hb : c.bold = p.bold)
    (hi : c.italic = p.italic) (hu : c.underline = p.underline) :
    add_tags (some c) (some p) = "" := by
  rcases c with ⟨tc, cb, ci, cu⟩; rcases p with ⟨tp, pb, pi, pu⟩
  simp only at hb hi hu
  subst hb; subst hi; subst hu
  cases cb <;> cases ci <;> cases cu <;> rfl

theorem boundaryGroups_same_flags (rest : List Run) : ∀ prev : Run,
    (∀ r ∈ rest, r.bold = prev.bold ∧ r.italic = prev.italic
      ∧ r.underline = prev.underline) →
    boundaryGroups prev rest
      = strConcat (rest.map Run.text)
        ++ closeSeq prev.bold prev.italic prev.underline := by
  induction rest with
  | nil =>
    intro prev _
    rw [boundaryGroups, add_tags_last_eq_closeSeq]
    simp [strConcat, String.empty_append]
  | cons c rest ih =>
    intro prev hall
    obtain ⟨hb, hi, hu⟩ := hall c (by simp)
    have hrest : ∀ r ∈ rest, r.bold = c.bold ∧ r.italic = c.italic
        ∧ r.underline = c.underline := by
      intro r hr
      obtain ⟨b2, i2, u2⟩ := hall r (by simp [hr])
      exact ⟨b2.trans hb.symm, i2.trans hi.symm, u2.trans hu.symm⟩
    rw [boundaryGroups, add_tags_same_flags c prev hb hi hu, ih c hrest,
      List.map_cons, strConcat, String.empty_append, hb, hi, hu,
      String.append_assoc]

theorem get_string_uniform (r0 : Run) (rest : List Run)
    (hall : ∀ r ∈ rest, r.bold = r0.bold ∧ r.italic = r0.italic
      ∧ r.underline = r0.underline) :
    get_string (r0 :: rest)
      = openSeq r0.bold r0.italic r0.underline
        ++ strConcat ((r0 :: rest).map Run.text)
        ++ closeSeq r0.bold r0.italic r0.underline := by
  rw [get_string_shape, add_tags_first_eq_openSeq,
    boundaryGroups_same_flags rest r0 hall, List.map_cons]
  simp [strConcat, String.append_assoc]

theorem add_tags_noflags_first (c : Run) (hb : c.bold = false)
    (hi : c.italic = false) (hu : c.underline = false) :
    add_tags (some c) none = "" := by
  rw [add_tags_first_eq_openSeq, hb, hi, hu]; rfl

theorem boundaryGroups_noflags (rest : List Run) : ∀ prev : Run,
    prev.bold = false → prev.italic = false → prev.underline = false →
    (∀ r ∈ rest, r.bold = false ∧ r.italic = false ∧ r.underline = false) →
    boundaryGroups prev rest = strConcat (rest.map Run.text) := by
  intro prev hb hi hu hall
  rw [boundaryGroups_same_flags rest prev (by
    intro r hr
    obtain ⟨b2, i2, u2⟩ := hall r hr
    exact ⟨b2.trans hb.symm, i2.trans hi.symm, u2.trans hu.symm⟩)]
  rw [hb, hi, hu]
  show strConcat (rest.map Run.text) ++ "" = strConcat (rest.map Run.text)
  rw [String.append_empty]

theorem get_string_all_empty (runs : List Run)
    (h : ∀ r ∈ runs, r.text = "" ∧ r.bold = false ∧ r.italic = false
      ∧ r.underline = false) :
    get_string runs = "" := by
  cases runs with
  | nil => rfl
  | cons r0 rest =>
    obtain ⟨ht, hb, hi, hu⟩ := h r0 (by simp)
    have hrest : ∀ r ∈ rest, r.bold = false ∧ r.italic = false
        ∧ r.underline = false := by
      intro r hr
      obtain ⟨_, b2, i2, u2⟩ := h r (by simp [hr])
      exact ⟨b2, i2, u2⟩
    have htexts : strConcat (rest.map Run.text) = "" := by
      clear hrest
      induction rest with
      | nil => rfl
      | cons c rest2 ih =>
        obtain ⟨t2, _, _, _⟩ := h c (by simp)
        rw [List.map_cons, strConcat, t2, String.empty_append]
        exact ih (by intro r hr; exact h r (by simp at hr ⊢; tauto))
    rw [get_string_shape, add_tags_noflags_first r0 hb hi hu,
      boundaryGroups_noflags rest r0 hb hi hu hrest, htexts, ht,
      String.empty_append, String.empty_append]

/-! ### Assembler and format lemmas -/

theorem foldl_snoc_map {α : Type} (f : α → String) (pars : List α) :
    ∀ acc : List String,
    pars.foldl (fun r p => r ++ [f p]) acc = acc ++ pars.map f := by
  induction pars with
  | nil => intro acc; simp
  | cons p pars ih => intro acc; simp [ih]

theorem get_modified_text_eq_map (fmt : Format) (pars : List DocxPar) :
    get_modified_text fmt pars
      = fmt.div_tag :: (pars.map (wrapUnit fmt) ++ [fmt.div_end_tag]) := by
  rw [get_modified_text, foldl_snoc_map]
  simp

theorem strTake_pstyle (tl : String) : strTake ("<p style=" ++ tl) 2 = "<p" := by
  show String.mk (("<p style=" ++ tl).data.take 2) = "<p"
  rw [String.data_append]
  rfl

theorem strTake_p_tag (dm ind w pm : String) :
    strTake (Format.make dm ind w pm).p_tag 2 = "<p" := by
  show strTake (if pm ≠ "" then "<p style=" ++ squo ++ pm ++ squo ++ ">" else "<p>") 2
    = "<p"
  split_ifs with h
  · rw [String.append_assoc, String.append_assoc, String.append_assoc]
    exact strTake_pstyle (squo ++ (pm ++ (squo ++ ">")))
  · rfl

/-! ### Claims -/

/-- Claim C1, counterexample: for the two-run paragraph bold("a"),
italic("b") the reconciled string is `<b>a<i></b>b</i>`: the `<i>` opened
inside `<b>` is closed after `</b>`, so the tag sequence is not stack-like
nested.  The token list underlying the string (shown equal by the second
conjunct) fails the stack checker. -/
theorem C1_counterexample :
    get_string [⟨"a", true, false, false⟩, ⟨"b", false, true, false⟩]
      = "<b>a<i></b>b</i>" ∧
    renderToks (tokens [⟨"a", true, false, false⟩, ⟨"b", false, true, false⟩])
      = "<b>a<i></b>b</i>" ∧
    wellNested (tokens [⟨"a", true, false, false⟩, ⟨"b", false, true, false⟩])
      = false := by
  refine ⟨?_, ?_, ?_⟩ <;> rfl

/-- Claim C1 (amended): the reconciled tag sequence is balanced per tag
name: `get_string` renders the token list `tokens`, each tag kind has
equally many opens and closes over the whole paragraph (so every opened
tag is closed by the end), and no prefix closes a tag kind more often
than it has opened it.  Stack-like nesting of distinct tags does not hold
(see the counterexample). -/
theorem C1_tag_balance (runs : List Run) (t : TagKind) :
    get_string runs = renderToks (tokens runs) ∧
    netOpens t (tokens runs) = 0 ∧
    ∀ pre post : List Tok, tokens runs = pre ++ post → 0 ≤ netOpens t pre :=
  ⟨get_string_eq_renderToks runs, netOpens_tokens t runs, dyck_tokens t runs⟩

/-- Witness for C1: the balance theorem applied to a concrete one-run
paragraph and the empty prefix. -/
theorem C1_tag_balance_witness :
    netOpens TagKind.b (tokens [⟨"a", true, false, false⟩]) = 0 ∧
    0 ≤ netOpens TagKind.b ([] : List Tok) :=
  ⟨(C1_tag_balance [⟨"a", true, false, false⟩] TagKind.b).2.1,
   (C1_tag_balance [⟨"a", true, false, false⟩] TagKind.b).2.2 []
     (tokens [⟨"a", true, false, false⟩]) (by simp)⟩

/-- Claim C2, counterexample: at the boundary from bold("a") to
italic("b") the group `add_tags` emits is `<i></b>` - the opening tag
first, then the closing tag - not `</b><i>` as the claim states. -/
theorem C2_counterexample :
    add_tags (some ⟨"b", false, true, false⟩) (some ⟨"a", true, false, false⟩)
      = "<i></b>" ∧
    ("<i></b>" : String) ≠ "</b><i>" :=
  ⟨rfl, by decide⟩

/-- Claim C2 (amended): at every internal boundary the emitted group is
the opening tags for the current run first, then the closing tags for the
previous run (the reverse of the claimed order); the paragraph output is
open-tags + run-1 text + per-boundary groups with texts + closing tags
after the last run. -/
theorem C2_boundary_groups (cur prevR r0 : Run) (rest : List Run) :
    add_tags (some cur) (some prevR)
      = openPart cur (some prevR) ++ closePart prevR (some cur) ∧
    get_string (r0 :: rest)
      = add_tags (some r0) none ++ r0.text ++ boundaryGroups r0 rest :=
  ⟨rfl, get_string_shape r0 rest⟩

/-- Claim C3 (confirmed): `get_string` renders the token list, each run
text occurs in the token list right after the tokens `tokensBefore`
counts, and for every run and tag kind the opens-minus-closes count in
front of that run text is 1 exactly when the corresponding flag of the
run is set. -/
theorem C3_open_set_matches_flags (runs : List Run) :
    get_string runs = renderToks (tokens runs) ∧
    ∀ (i : Nat) (h : i < runs.length) (t : TagKind),
      (∃ sfx, tokens runs
        = tokensBefore runs i ++ Tok.text ((runs.get ⟨i, h⟩).text) :: sfx) ∧
      netOpens t (tokensBefore runs i)
        = if flagOf t (runs.get ⟨i, h⟩) then 1 else 0 := by
  refine ⟨get_string_eq_renderToks runs, ?_⟩
  intro i h t
  refine ⟨tokens_split runs i h, ?_⟩
  rw [netOpens_tokensBefore t runs i h, bInt]

/-- Witness for C3 at a concrete bold run. -/
theorem C3_open_set_witness :
    netOpens TagKind.b (tokensBefore [⟨"x", true, false, false⟩] 0)
      = if flagOf TagKind.b
          (([⟨"x", true, false, false⟩] : List Run).get ⟨0, by decide⟩)
        then 1 else 0 :=
  (((C3_open_set_matches_flags [⟨"x", true, false, false⟩]).2 0
    (by decide)) TagKind.b).2

/-- Claim C4 (confirmed): a non-empty paragraph whose runs all carry the
same flags reconciles to one opening sequence (bold, italic, underline
order), the concatenated run texts with no tags in between, and one
closing sequence (underline, italic, bold order). -/
theorem C4_uniform_flags (r0 : Run) (rest : List Run)
    (hall : ∀ r ∈ rest, r.bold = r0.bold ∧ r.italic = r0.italic
      ∧ r.underline = r0.underline) :
    get_string (r0 :: rest)
      = openSeq r0.bold r0.italic r0.underline
        ++ strConcat ((r0 :: rest).map Run.text)
        ++ closeSeq r0.bold r0.italic r0.underline :=
  get_string_uniform r0 rest hall

/-- Witness for C4: two bold runs reconcile to `<b>xy</b>`. -/
theorem C4_uniform_flags_witness :
    get_string [⟨"x", true, false, false⟩, ⟨"y", true, false, false⟩]
      = openSeq true false false ++ strConcat ["x", "y"]
        ++ closeSeq true false false :=
  C4_uniform_flags ⟨"x", true, false, false⟩ [⟨"y", true, false, false⟩]
    (by decide)

/-- Claim C5, counterexample: a paragraph whose single run has empty text
but the bold flag set reconciles to `<b></b>`, which is not empty, so it
is wrapped as a styled block and not as a structural break. -/
theorem C5_counterexample :
    get_string [⟨"", true, false, false⟩] = "<b></b>" ∧
    get_string [⟨"", true, false, false⟩] ≠ "" := by
  constructor
  · rfl
  · decide

/-- Claim C5 (amended): a paragraph with zero runs, and a paragraph whose
runs all have empty text and no set flags, reconcile to the empty string,
and the assembler then emits the structural break marker: the closing
`</div>` immediately followed by the opening div tag. -/
theorem C5_empty_paragraph (dm ind w pm : String) (runs : List Run) (al : String)
    (h : runs = [] ∨ ∀ r ∈ runs, r.text = "" ∧ r.bold = false
      ∧ r.italic = false ∧ r.underline = false) :
    get_string runs = "" ∧
    get_modified_text (Format.make dm ind w pm) [⟨runs, al⟩]
      = [(Format.make dm ind w pm).div_tag,
         "</div>" ++ (Format.make dm ind w pm).div_tag,
         "</div>"] := by
  have hget : get_string runs = "" := by
    rcases h with h | h
    · rw [h]; rfl
    · exact get_string_all_empty runs h
  refine ⟨hget, ?_⟩
  rw [get_modified_text_eq_map]
  simp [wrapUnit, hget, Format.make]

/-- Witness for C5 at the zero-run paragraph. -/
theorem C5_empty_paragraph_witness :
    get_string ([] : List Run) = "" ∧
    get_modified_text (Format.make "" "" "" "") [⟨[], "justify"⟩]
      = [(Format.make "" "" "" "").div_tag,
         "</div>" ++ (Format.make "" "" "" "").div_tag, "</div>"] :=
  C5_empty_paragraph "" "" "" "" [] "justify" (Or.inl rfl)

/-- Claim C6 (confirmed): for any document the assembler output is the
opening div tag, one unit per paragraph in input order, and the closing
`</div>`; its length is the paragraph count plus two. -/
theorem C6_assembler_shape (dm ind w pm : String) (pars : List DocxPar) :
    get_modified_text (Format.make dm ind w pm) pars
      = (Format.make dm ind w pm).div_tag
        :: (pars.map (wrapUnit (Format.make dm ind w pm)) ++ ["</div>"]) ∧
    (get_modified_text (Format.make dm ind w pm) pars).length
      = pars.length + 2 := by
  have h := get_modified_text_eq_map (Format.make dm ind w pm) pars
  have hend : (Format.make dm ind w pm).div_end_tag = "</div>" := rfl
  constructor
  · rw [h, hend]
  · rw [h]; simp

/-- Claim C7, counterexample: an unset margin key does not make
`get_margins` return the empty string - the lookup raises `KeyError`
(modelled as an error value) before the branch logic runs. -/
theorem C7_counterexample :
    get_marginsSection ⟨none, some 1, some 1, some 1, some "px"⟩
      = Except.error "KeyError" ∧
    (Except.error "KeyError" : Except String String) ≠ Except.ok "" :=
  ⟨rfl, fun h => nomatch h⟩

/-- Claim C7 (amended): when all four margin values are present and at
least one of them is zero, `get_margins` returns the empty string; an
unset key instead raises a key error (see the counterexample). -/
theorem C7_zero_margin (top right bottom left : ℚ) (units : String)
    (h : top = 0 ∨ right = 0 ∨ bottom = 0 ∨ left = 0) :
    get_margins top right bottom left units = "" := by
  have hc : ¬(top ≠ 0 ∧ right ≠ 0 ∧ bottom ≠ 0 ∧ left ≠ 0) := by
    rcases h with h | h | h | h <;> simp [h]
  unfold get_margins
  rw [if_pos hc]

/-- Witness for C7 with a zero top margin. -/
theorem C7_zero_margin_witness : get_margins 0 1 1 1 "px" = "" :=
  C7_zero_margin 0 1 1 1 "px" (Or.inl rfl)

/-- Claim C8, counterexample: with all four margins 10 and units `px` the
returned string is `margin: 10.0px; ` - Python renders the float 10.0
with a trailing `.0` and the format string ends in a space - which
differs from the claimed `margin: 10px;`. -/
theorem C8_counterexample :
    get_margins 10 10 10 10 "px" = "margin: 10.0px; " ∧
    ("margin: 10.0px; " : String) ≠ "margin: 10px;" := by
  constructor
  · rfl
  · decide

/-- Claim C8 (amended): with all four margins 10 and units `px` the
single-value shorthand branch is taken and yields `margin: 10.0px; `;
the right strip applied when the p tag style is built reduces it to
`margin: 10.0px;`. -/
theorem C8_shorthand :
    get_margins 10 10 10 10 "px" = "margin: 10.0px; " ∧
    rstrip (get_margins 10 10 10 10 "px") = "margin: 10.0px;" := by
  constructor
  · rfl
  · rfl

/-- Claim C9, counterexample: a justify-aligned paragraph is wrapped in
the plain `<p>` tag with no alignment attribute at all - the output
contains no occurrence of `align`. -/
theorem C9_counterexample :
    wrapUnit (Format.make "" "" "" "")
      ⟨[⟨"x", false, false, false⟩], "justify"⟩ = "<p>x</p>" ∧
    hasSub ("<p>x</p>").data ("align").data = false := by
  constructor
  · rfl
  · rfl

/-- Claim C9 (amended): a non-empty paragraph is wrapped in the p tag
followed by the string and `</p>`; for right alignment the attribute
` align=(squo)right(squo)` is spliced in directly after `<p`, while any
other alignment uses the Format p tag unchanged, with no alignment
attribute added (justification comes from the enclosing div). -/
theorem C9_alignment (dm ind w pm al : String) (runs : List Run)
    (h : get_string runs ≠ "") :
    (al = "right" →
      wrapUnit (Format.make dm ind w pm) ⟨runs, al⟩
        = "<p" ++ " align=" ++ squo ++ "right" ++ squo
          ++ strDrop (Format.make dm ind w pm).p_tag 2
          ++ get_string runs ++ "</p>") ∧
    (al ≠ "right" →
      wrapUnit (Format.make dm ind w pm) ⟨runs, al⟩
        = (Format.make dm ind w pm).p_tag ++ get_string runs ++ "</p>") := by
  have hpe : (Format.make dm ind w pm).p_end_tag = "</p>" := rfl
  constructor
  · intro hal
    simp only [wrapUnit, h, hal, if_pos, if_true, ne_eq, not_false_eq_true,
      ite_true, reduceIte, hpe, strTake_p_tag, String.append_assoc]
  · intro hal
    simp only [wrapUnit, h, hal, ne_eq, not_false_eq_true, ite_true,
      ite_false, if_neg, reduceIte, hpe, String.append_assoc]

/-- Witness for C9 at a concrete right-aligned paragraph. -/
theorem C9_alignment_witness :
    wrapUnit (Format.make "" "" "" "") ⟨[⟨"x", false, false, false⟩], "right"⟩
      = "<p" ++ " align=" ++ squo ++ "right" ++ squo
        ++ strDrop (Format.make "" "" "" "").p_tag 2
        ++ get_string [⟨"x", false, false, false⟩] ++ "</p>" :=
  (C9_alignment "" "" "" "" "right" [⟨"x", false, false, false⟩]
    (by decide)).1 rfl

/-- Claim C10 (confirmed): `get_margins` never returns a single-side
margin directive: every result is the empty string or starts with
`margin: ` (a 1-, 2-, 3- or 4-value shorthand), because once the first
branch has let a configuration through, all four values are non-zero and
the four single-side branches are unreachable. -/
theorem C10_no_single_side (top right bottom left : ℚ) (units : String) :
    get_margins top right bottom left units = "" ∨
    ∃ rest, get_margins top right bottom left units = "margin: " ++ rest := by
  by_cases hA : top ≠ 0 ∧ right ≠ 0 ∧ bottom ≠ 0 ∧ left ≠ 0
  · unfold get_margins
    rw [if_neg (not_not_intro hA)]
    by_cases h2 : top = right ∧ right = bottom ∧ bottom = left
    · rw [if_pos h2]
      exact Or.inr ⟨pyFloatRepr top ++ (units ++ "; "),
        by simp [String.append_assoc]⟩
    · rw [if_neg h2]
      have h3 : ¬(top ≠ 0 ∧ ¬(right ≠ 0 ∧ bottom ≠ 0 ∧ left ≠ 0)) := by tauto
      rw [if_neg h3]
      by_cases h4 : top = bottom ∧ right = left
      · rw [if_pos h4]
        exact Or.inr ⟨pyFloatRepr top ++ (units ++ (" "
          ++ (pyFloatRepr right ++ (units ++ "; ")))),
          by simp [String.append_assoc]⟩
      · rw [if_neg h4]
        have h5 : ¬(left ≠ 0 ∧ ¬(right ≠ 0 ∧ top ≠ 0 ∧ bottom ≠ 0)) := by tauto
        rw [if_neg h5]
        have h6 : ¬(right ≠ 0 ∧ ¬(left ≠ 0 ∧ top ≠ 0 ∧ bottom ≠ 0)) := by tauto
        rw [if_neg h6]
        have h7 : ¬(bottom ≠ 0 ∧ ¬(right ≠ 0 ∧ left ≠ 0 ∧ top ≠ 0)) := by tauto
        rw [if_neg h7]
        by_cases h8 : top ≠ bottom ∧ right = left
        · rw [if_pos h8]
          exact Or.inr ⟨pyFloatRepr top ++ (units ++ (" "
            ++ (pyFloatRepr right ++ (units ++ (" "
            ++ (pyFloatRepr bottom ++ (units ++ "; "))))))),
            by simp [String.append_assoc]⟩
        · rw [if_neg h8]
          exact Or.inr ⟨pyFloatRepr top ++ (units ++ (" "
            ++ (pyFloatRepr right ++ (units ++ (" "
            ++ (pyFloatRepr bottom ++ (units ++ (" "
            ++ (pyFloatRepr left ++ (units ++ "; ")))))))))),
            by simp [String.append_assoc]⟩
  · unfold get_margins
    rw [if_pos hA]
    exact Or.inl rfl
